import Mathlib

/-!
Shallow embedding of the ALLHiC scaffolding core (Go sources `graph.go`,
`clm.go`): the contact store of `ParseClm`, the active-flag pruning passes,
the confidence-graph construction (`makeConfidenceGraph`, `getSecondLargest`),
the DFS path walk (`dfs`) and the cycle breaker (`breakCycle`).

Modelling conventions: Go `float64` values are carried by `ℚ` (every finite
float is rational) except where a claim is about `math.Log10` itself, where
`ℝ` and `Real.logb 10` are used; Go maps are association lists (iteration
order = list order) or update functions (for pure key/value stores); `*Node`
pointers are natural-number handles, the sister pointer an explicit function.
-/

namespace ALLHiC

/-- An edge between two node handles, as in `graph.go`'s `Edge` struct
(`a, b *Node; weight float64`). -/
structure Edge where
  a : ℕ
  b : ℕ
  weight : ℚ
deriving DecidableEq, Repr

instance : Inhabited Edge := ⟨⟨0, 0, 0⟩⟩

/-- The accumulator loop of `breakCycle` (`graph.go` lines 244-249):
`minI, minWeight := 0, math.MaxFloat64; for i, edge := range path { if
edge.weight > 1 && edge.weight < minWeight { minI, minWeight = i, edge.weight } }`.
The initial `math.MaxFloat64` (no candidate seen yet) is modelled as `none`. -/
def breakLoop : List Edge → ℕ → ℕ × Option ℚ → ℕ × Option ℚ
  | [], _, acc => acc
  | e :: es, i, (mi, mw) =>
    breakLoop es (i + 1)
      (match mw with
       | none => if e.weight > 1 then (i, some e.weight) else (mi, none)
       | some m => if e.weight > 1 ∧ e.weight < m then (i, some e.weight) else (mi, some m))

/-- The state of `breakCycle`'s scan over the whole path. -/
def breakState (path : List Edge) : ℕ × Option ℚ :=
  breakLoop path 0 (0, none)

/-- The `minI` selected by `breakCycle`. -/
def breakIndex (path : List Edge) : ℕ :=
  (breakState path).1

/-- Function `breakCycle` (`graph.go` lines 243-251): returns
`append(path[minI+1:], path[:minI]...)`. -/
def breakCycle (path : List Edge) : List Edge :=
  path.drop (breakIndex path + 1) ++ path.take (breakIndex path)

/-! ## Contact store (`clm.go`) -/

/-- Type `Pair` (`clm.go` lines 46-49): the map key of `contacts`, two contig
indices as parsed, in order. -/
structure Pair where
  ai : ℕ
  bi : ℕ
deriving DecidableEq, Repr

/-- Type `Contact` (`clm.go` lines 60-64): `strandedness`, `nlinks`, `meanDist`. -/
structure Contact where
  strandedness : ℤ
  nlinks : ℤ
  meanDist : ℤ
deriving DecidableEq, Repr

/-- Type `OrientedPair` (`clm.go` lines 52-57): two contig indices plus their
orientation characters. -/
structure OrientedPair where
  ai : ℕ
  bi : ℕ
  ao : Char
  bo : Char
deriving DecidableEq, Repr

/-- The golden-array histogram attached to an oriented pair; its binning
function lives outside the modelled sources, so histograms are opaque data. -/
abbrev GArray := List ℤ

/-- The `contacts` merge step of `ParseClm` (`clm.go` lines 172-178): replace
the stored contact only when the incoming `meanDist` is strictly smaller,
insert when absent. -/
def contactStep (cur : Option Contact) (c : Contact) : Option Contact :=
  match cur with
  | some p => if p.meanDist > c.meanDist then some c else some p
  | none => some c

/-- One record's effect on the `contacts` map (`clm.go` lines 170-178). -/
def ingestContact (m : Pair → Option Contact) (p : Pair) (c : Contact) :
    Pair → Option Contact :=
  fun q => if q = p then contactStep (m p) c else m q

/-- Folding a sequence of parsed records into the `contacts` map, in file
order, as the `ParseClm` scanner loop does. -/
def ingestContacts (m : Pair → Option Contact) (rs : List (Pair × Contact)) :
    Pair → Option Contact :=
  rs.foldl (fun acc r => ingestContact acc r.1 r.2) m

/-- The empty `contacts` map created by `InitCLMFile`. -/
def emptyContacts : Pair → Option Contact := fun _ => none

/-- Function `rr` (`clm.go` lines 125-130): orientation flip, `'-' ↦ '+'`,
anything else `↦ '-'`. -/
def rr (b : Char) : Char :=
  if b = '-' then '+' else '-'

/-- One record's effect on the `orientedContacts` map (`clm.go` lines
179-180): the forward key is written first, then the orientation-flipped
reverse key, so the reverse write shadows the forward one if they coincide. -/
def ingestOriented (m : OrientedPair → Option GArray) (ai bi : ℕ) (ao bo : Char)
    (g : GArray) : OrientedPair → Option GArray :=
  fun k =>
    if k = ⟨bi, ai, rr bo, rr ao⟩ then some g
    else if k = ⟨ai, bi, ao, bo⟩ then some g
    else m k

/-! ## Active-flag pruning (`clm.go`) -/

/-- Type `TigF` (`clm.go` lines 67-72) without the redundant `Name` string. -/
structure TigF where
  Idx : ℕ
  Size : ℕ
  IsActive : Bool
deriving DecidableEq, Repr

/-- Type `Tig` (`clm.go` lines 75-78). -/
structure Tig where
  Idx : ℕ
  Size : ℕ
deriving DecidableEq, Repr

/-- Default element used for out-of-range reads; inactive, so out-of-range
positions carry no activity. -/
def tig0 : TigF := ⟨0, 0, false⟩

/-- The loop body of `pruneByDensity` (`clm.go` lines 211-216): walk the tigs
with index `i`, deactivating a tig when `logdensities[i] < lb` and its size is
below ten times the minimum size. The density vector and the lower outlier
bound are parameters (they come from `calculateDensities` and the external
`OutlierCutoff`). -/
def pruneByDensityLoop (ld : List ℚ) (lb : ℚ) (minTen : ℕ) :
    ℕ → List TigF → List TigF
  | _, [] => []
  | i, t :: ts =>
    (if ld.getD i 0 < lb ∧ t.Size < minTen then { t with IsActive := false } else t) ::
      pruneByDensityLoop ld lb minTen (i + 1) ts

/-- Function `pruneByDensity` (`clm.go` lines 206-219), deactivation pass only. -/
def pruneByDensity (tigs : List TigF) (ld : List ℚ) (lb : ℚ) (minTen : ℕ) :
    List TigF :=
  pruneByDensityLoop ld lb minTen 0 tigs

/-- Function `pruneBySize` (`clm.go` lines 222-232): deactivate every tig whose size is
below `MINSIZE` (a constant outside the modelled sources, kept a parameter). -/
def pruneBySize (minsize : ℕ) (tigs : List TigF) : List TigF :=
  tigs.map fun t => if t.Size < minsize then { t with IsActive := false } else t

/-- The update `r.Tigs[j].IsActive = false` (`clm.go` line 277) as a list update. -/
def deactivateAt : List TigF → ℕ → List TigF
  | [], _ => []
  | t :: ts, 0 => { t with IsActive := false } :: ts
  | t :: ts, j + 1 => t :: deactivateAt ts j

/-- The deactivation loop of `pruneTour` (`clm.go` lines 274-280): for each
tour position `i`, if `log10ds[i] < lb` then deactivate the tig at index
`tour[i].Idx` in the global tig list. -/
def pruneTourDeactLoop (ds : List ℚ) (lb : ℚ) :
    ℕ → List Tig → List TigF → List TigF
  | _, [], tigs => tigs
  | i, tg :: rest, tigs =>
    pruneTourDeactLoop ds lb (i + 1) rest
      (if ds.getD i 0 < lb then deactivateAt tigs tg.Idx else tigs)

/-- The whole-tour deactivation pass of `pruneTour`. -/
def pruneTourDeact (tigs : List TigF) (tour : List Tig) (ds : List ℚ) (lb : ℚ) :
    List TigF :=
  pruneTourDeactLoop ds lb 0 tour tigs

/-! ## Confidence graph (`graph.go`) -/

/-- Type `Graph` (`graph.go` line 30), `map[*Node]map[*Node]float64`, as an
association list of node handles to neighbour lists; list order models the
map's (arbitrary) iteration order. -/
abbrev GraphL := List (ℕ × List (ℕ × ℚ))

/-- Lookup of an outer map entry `G[a]`. -/
def lookupNb : GraphL → ℕ → Option (List (ℕ × ℚ))
  | [], _ => none
  | (k, nb) :: rest, a => if k = a then some nb else lookupNb rest a

/-- Lookup of an inner map entry `nb[b]`. -/
def lookupW : List (ℕ × ℚ) → ℕ → Option ℚ
  | [], _ => none
  | (k, w) :: rest, b => if k = b then some w else lookupW rest b

/-- The read `G[a][b]`, when present. -/
def edgeWeight (G : GraphL) (a b : ℕ) : Option ℚ :=
  (lookupNb G a).bind fun nb => lookupW nb b

/-- The two-largest accumulator of `makeConfidenceGraph` (`graph.go` lines
94-101): `if score > first { first, second = score, first } else if
score <= first && score > second { second = score }`. -/
def twoStep (fs : ℚ × ℚ) (score : ℚ) : ℚ × ℚ :=
  if score > fs.1 then (score, fs.1)
  else if score ≤ fs.1 ∧ score > fs.2 then (fs.1, score)
  else fs

/-- The table `twoLargest[a]` (`graph.go` lines 91-103): fold of `twoStep` over the
scores of `a`'s neighbour list, starting from `(0, 0)`. -/
def twoLargest (G : GraphL) (a : ℕ) : ℚ × ℚ :=
  (((lookupNb G a).getD []).map Prod.snd).foldl twoStep (0, 0)

/-- Function `getSecondLargest` (`graph.go` lines 125-135): concatenate the two
two-item lists, sort ascending, take `A[2]`, falling back to `A[1]` when
`A[3] == A[2]` and `A[1] > 0`. -/
def getSecondLargest (x y : ℚ × ℚ) : ℚ :=
  match List.insertionSort (· ≤ ·) [x.1, x.2, y.1, y.2] with
  | [_a1, a2, a3, a4] => if a4 = a3 ∧ a2 > 0 then a2 else a3
  | _ => 0

/-- The second pass of `makeConfidenceGraph` (`graph.go` lines 105-119): for
each directed edge `(a, b)` with weight `w`, divide by
`getSecondLargest(twoLargest[a], twoLargest[b])` and keep the edge exactly
when the quotient exceeds 1. The `twoLargest` table is computed from the
input graph before any division, as in the source. -/
def confEdges (G : GraphL) : List (ℕ × ℕ × ℚ) :=
  G.flatMap fun anb =>
    anb.2.filterMap fun bw =>
      if bw.2 / getSecondLargest (twoLargest G anb.1) (twoLargest G bw.1) > 1 then
        some (anb.1, bw.1, bw.2 / getSecondLargest (twoLargest G anb.1) (twoLargest G bw.1))
      else none

/-- Scaling every raw edge score by a constant `c` (the premise of the
scale-invariance property). -/
def scaleG (c : ℚ) (G : GraphL) : GraphL :=
  G.map fun anb => (anb.1, anb.2.map fun bw => (bw.1, c * bw.2))

/-- The length normalization of `makeGraph` (`graph.go` lines 69-73):
`G[a][b] = score / (len(a.path) * len(b.path))`, with `len` the path length
of each node handle. -/
def normalizeG (len : ℕ → ℚ) (G : GraphL) : GraphL :=
  G.map fun anb => (anb.1, anb.2.map fun bw => (bw.1, bw.2 / (len anb.1 * len bw.1)))

/-! ## DFS walk (`graph.go`) -/

/-- Function `dfs` (`graph.go` lines 255-280). The sister pointer is the function
`sis`; `visited` is the list of marked node handles; recursion depth is
bounded by explicit fuel. `none` models a run that exhausts fuel or reaches
the nil-dereference of an empty neighbour map (`for b, weight = range nb`
leaving `b` nil when `nb` is empty). An absent key `G[a]` returns the path
as a non-cycle, a revisited node returns it as a cycle. -/
def dfs (sis : ℕ → ℕ) (G : GraphL) :
    ℕ → ℕ → List Edge → List ℕ → Bool → Option (List Edge × Bool)
  | 0, _, _, _, _ => none
  | fuel + 1, a, path, visited, visitSister =>
    if a ∈ visited then some (path, true)
    else
      if visitSister then
        dfs sis G fuel (sis a) (path ++ [⟨a, sis a, 0⟩]) (a :: visited) false
      else
        match lookupNb G a with
        | some ((b, w) :: _) => dfs sis G fuel b (path ++ [⟨a, b, w⟩]) (a :: visited) true
        | some [] => none
        | none => some (path, false)

/-! ## Tour refinement recording (`clm.go`) -/

/-- The per-position recording of `pruneTour`'s goroutine body (`clm.go`
lines 255-263): `deltaScore := tourScore - newTourScore; if deltaScore > 1e-9
{ log10ds[idx] = math.Log10(deltaScore) } else { log10ds[idx] = -9.0 }`. -/
noncomputable def log10dEntry (tourScore newTourScore : ℝ) : ℝ :=
  if tourScore - newTourScore > 1e-9 then Real.logb 10 (tourScore - newTourScore)
  else -9

/-! ## Lemmas about `breakCycle`'s scan -/

/-- When no edge qualifies (weight > 1), the scan never moves off its
initial accumulator. -/
theorem breakLoop_none_of_no_candidate (es : List Edge) :
    ∀ (i mi : ℕ), (∀ e ∈ es, ¬ 1 < e.weight) →
      breakLoop es i (mi, none) = (mi, none) := by
  induction es with
  | nil => intro i mi _; rfl
  | cons e es ih =>
    intro i mi h
    have he : ¬ e.weight > 1 := h e (by simp)
    simp only [breakLoop, if_neg he]
    exact ih (i + 1) mi fun x hx => h x (by simp [hx])

/-- The selected index stays below any bound dominating both the initial
index and the scanned range. -/
theorem breakLoop_fst_lt (es : List Edge) :
    ∀ (i mi : ℕ) (mw : Option ℚ) (N : ℕ), mi < N → i + es.length ≤ N →
      (breakLoop es i (mi, mw)).1 < N := by
  induction es with
  | nil => intro i mi mw N hmi _; simpa [breakLoop] using hmi
  | cons e es ih =>
    intro i mi mw N hmi hlen
    have hi : i < N := by simp only [List.length_cons] at hlen; omega
    have hlen' : (i + 1) + es.length ≤ N := by
      simp only [List.length_cons] at hlen; omega
    cases mw with
    | none =>
      by_cases hw : e.weight > 1
      · simp only [breakLoop, if_pos hw]
        exact ih (i + 1) i _ N hi hlen'
      · simp only [breakLoop, if_neg hw]
        exact ih (i + 1) mi _ N hmi hlen'
    | some m =>
      by_cases hw : e.weight > 1 ∧ e.weight < m
      · simp only [breakLoop, if_pos hw]
        exact ih (i + 1) i _ N hi hlen'
      · simp only [breakLoop, if_neg hw]
        exact ih (i + 1) mi _ N hmi hlen'

/-- Behaviour of the scan once a qualifying candidate has been recorded:
the recorded weight only decreases, bounds every later qualifying weight,
and either survives unchanged or is replaced by a strictly better edge of
the remaining list. -/
theorem breakLoop_some_spec (es : List Edge) :
    ∀ (i mi : ℕ) (m : ℚ),
      ∃ mi' m', breakLoop es i (mi, some m) = (mi', some m') ∧
        m' ≤ m ∧
        (∀ e ∈ es, 1 < e.weight → m' ≤ e.weight) ∧
        ((m' = m ∧ mi' = mi) ∨
          ∃ k, k < es.length ∧ mi' = i + k ∧
            (es.getD k default).weight = m' ∧ 1 < m') := by
  induction es with
  | nil =>
    intro i mi m
    exact ⟨mi, m, rfl, le_refl m, by simp, Or.inl ⟨rfl, rfl⟩⟩
  | cons e es ih =>
    intro i mi m
    by_cases hc : e.weight > 1 ∧ e.weight < m
    · simp only [breakLoop, if_pos hc]
      obtain ⟨mi', m', heq, hle, hmin, hcase⟩ := ih (i + 1) i e.weight
      refine ⟨mi', m', heq, le_trans hle (le_of_lt hc.2), ?_, ?_⟩
      · intro x hx h1
        rcases List.mem_cons.mp hx with rfl | hx'
        · exact hle
        · exact hmin x hx' h1
      · rcases hcase with ⟨hm, hmi⟩ | ⟨k, hk, hik, hgd, h1⟩
        · exact Or.inr ⟨0, by simp, by omega, by simpa [hmi] using hm.symm ▸ rfl,
            by rw [hm]; exact hc.1⟩
        · exact Or.inr ⟨k + 1, by simpa using hk, by omega, by simpa using hgd, h1⟩
    · simp only [breakLoop, if_neg hc]
      obtain ⟨mi', m', heq, hle, hmin, hcase⟩ := ih (i + 1) mi m
      refine ⟨mi', m', heq, hle, ?_, ?_⟩
      · intro x hx h1
        rcases List.mem_cons.mp hx with rfl | hx'
        · have : m ≤ x.weight := by
            rcases not_and_or.mp hc with h | h
            · exact absurd h1 h
            · exact le_of_not_lt h
          exact le_trans hle this
        · exact hmin x hx' h1
      · rcases hcase with ⟨hm, hmi⟩ | ⟨k, hk, hik, hgd, h1⟩
        · exact Or.inl ⟨hm, hmi⟩
        · exact Or.inr ⟨k + 1, by simpa using hk, by omega, by simpa using hgd, h1⟩

/-- Behaviour of the scan from the initial (no candidate) state when some
qualifying edge exists: the result records a qualifying edge of minimal
weight, at the index where it sits. -/
theorem breakLoop_none_spec (es : List Edge) :
    ∀ (i mi : ℕ), (∃ e ∈ es, 1 < e.weight) →
      ∃ mi' m', breakLoop es i (mi, none) = (mi', some m') ∧
        (∀ e ∈ es, 1 < e.weight → m' ≤ e.weight) ∧
        ∃ k, k < es.length ∧ mi' = i + k ∧
          (es.getD k default).weight = m' ∧ 1 < m' := by
  induction es with
  | nil => intro i mi h; simp at h
  | cons e es ih =>
    intro i mi h
    by_cases hw : e.weight > 1
    · simp only [breakLoop, if_pos hw]
      obtain ⟨mi', m', heq, hle, hmin, hcase⟩ := breakLoop_some_spec es (i + 1) i e.weight
      refine ⟨mi', m', heq, ?_, ?_⟩
      · intro x hx h1
        rcases List.mem_cons.mp hx with rfl | hx'
        · exact hle
        · exact hmin x hx' h1
      · rcases hcase with ⟨hm, hmi⟩ | ⟨k, hk, hik, hgd, h1⟩
        · exact ⟨0, by simp, by omega, by simpa [hmi] using hm.symm ▸ rfl,
            by rw [hm]; exact hw⟩
        · exact ⟨k + 1, by simpa using hk, by omega, by simpa using hgd, h1⟩
    · simp only [breakLoop, if_neg hw]
      have h' : ∃ x ∈ es, 1 < x.weight := by
        rcases h with ⟨x, hx, h1⟩
        rcases List.mem_cons.mp hx with rfl | hx'
        · exact absurd h1 hw
        · exact ⟨x, hx', h1⟩
      obtain ⟨mi', m', heq, hmin, k, hk, hik, hgd, h1⟩ := ih (i + 1) mi h'
      refine ⟨mi', m', heq, ?_, k + 1, by simpa using hk, by omega, by simpa using hgd, h1⟩
      intro x hx h1'
      rcases List.mem_cons.mp hx with rfl | hx'
      · exact absurd h1' hw
      · exact hmin x hx' h1'

/-! ## Claim theorems -/

/-- C6: after ingesting a record `(ai, bi, ao, bo)` with histogram `g`, the
oriented-contact map holds both the forward key and the orientation-flipped
reverse key, each mapping to that same histogram. -/
theorem orientedContacts_symmetric (m : OrientedPair → Option GArray)
    (ai bi : ℕ) (ao bo : Char) (g : GArray) :
    ingestOriented m ai bi ao bo g ⟨ai, bi, ao, bo⟩ = some g ∧
    ingestOriented m ai bi ao bo g ⟨bi, ai, rr bo, rr ao⟩ = some g := by
  constructor
  · unfold ingestOriented
    split
    · rfl
    · simp
  · simp [ingestOriented]

/-- C10: `breakCycle` on a non-empty path always removes exactly one edge
(the result has length `n - 1`); when no edge has weight above 1 the
removed edge is the one at index 0, whatever its weight. -/
theorem breakCycle_removes_one (path : List Edge) (h : path ≠ []) :
    (breakCycle path).length = path.length - 1 ∧
    ((∀ e ∈ path, ¬ 1 < e.weight) → breakCycle path = path.drop 1) := by
  have hlen : 0 < path.length := List.length_pos.mpr h
  have hidx : breakIndex path < path.length :=
    breakLoop_fst_lt path 0 0 none path.length hlen (by omega)
  constructor
  · simp only [breakCycle, List.length_append, List.length_drop, List.length_take]
    omega
  · intro hno
    have h0 : breakState path = (0, none) :=
      breakLoop_none_of_no_candidate path 0 0 hno
    simp only [breakCycle, breakIndex, h0, List.take_zero, List.append_nil]

/-- Witness for C10 at the concrete two-edge path of zero-weight edges. -/
theorem breakCycle_removes_one_witness :
    (breakCycle [⟨0, 1, 0⟩, ⟨1, 2, 0⟩]).length = 2 - 1 ∧
    ((∀ e ∈ ([⟨0, 1, 0⟩, ⟨1, 2, 0⟩] : List Edge), ¬ 1 < e.weight) →
      breakCycle [⟨0, 1, 0⟩, ⟨1, 2, 0⟩] = ([⟨0, 1, 0⟩, ⟨1, 2, 0⟩] : List Edge).drop 1) :=
  breakCycle_removes_one [⟨0, 1, 0⟩, ⟨1, 2, 0⟩] (by decide)

/-- C2 counterexample: on a cycle whose edges all have weight 0 (sister
edges), `breakCycle` still removes an edge, namely the weight-0 edge at
index 0 — contradicting "an edge with weight ≤ 1 is never the removed
edge". -/
theorem breakCycle_sister_removed_cex :
    breakCycle [⟨0, 1, 0⟩, ⟨1, 0, 0⟩] = [⟨1, 0, 0⟩] ∧
    ¬ 1 < (([⟨0, 1, 0⟩, ⟨1, 0, 0⟩] : List Edge).getD 0 default).weight := by
  decide

/-- C2 (amended): when at least one edge of the path has weight strictly
greater than 1, `breakCycle` removes an edge of weight > 1 that is of
minimal weight among all such edges (so a weight-≤-1 edge, in particular a
sister edge, is never removed in that case), and the result is the input
rotated to start just after the removed index. -/
theorem breakCycle_weakest_qualifying (path : List Edge)
    (h : ∃ e ∈ path, 1 < e.weight) :
    1 < (path.getD (breakIndex path) default).weight ∧
    (∀ e ∈ path, 1 < e.weight →
      (path.getD (breakIndex path) default).weight ≤ e.weight) ∧
    breakCycle path = path.drop (breakIndex path + 1) ++ path.take (breakIndex path) := by
  obtain ⟨mi', m', heq, hmin, k, hk, hik, hgd, h1⟩ :=
    breakLoop_none_spec path 0 0 h
  have hbi : breakIndex path = k := by
    simp only [breakIndex, breakState, heq]
    omega
  have hweight : (path.getD (breakIndex path) default).weight = m' := by
    rw [hbi]; exact hgd
  exact ⟨hweight ▸ h1, fun e he h1' => hweight ▸ hmin e he h1', rfl⟩

/-- Witness for C2 (amended) at a concrete path holding two qualifying
edges of weights 5 and 3 and two sister edges. -/
theorem breakCycle_weakest_qualifying_witness :
    1 < (([⟨0, 1, 0⟩, ⟨1, 2, 5⟩, ⟨2, 3, 0⟩, ⟨3, 4, 3⟩] : List Edge).getD
      (breakIndex [⟨0, 1, 0⟩, ⟨1, 2, 5⟩, ⟨2, 3, 0⟩, ⟨3, 4, 3⟩]) default).weight ∧
    (∀ e ∈ ([⟨0, 1, 0⟩, ⟨1, 2, 5⟩, ⟨2, 3, 0⟩, ⟨3, 4, 3⟩] : List Edge), 1 < e.weight →
      (([⟨0, 1, 0⟩, ⟨1, 2, 5⟩, ⟨2, 3, 0⟩, ⟨3, 4, 3⟩] : List Edge).getD
        (breakIndex [⟨0, 1, 0⟩, ⟨1, 2, 5⟩, ⟨2, 3, 0⟩, ⟨3, 4, 3⟩]) default).weight ≤ e.weight) ∧
    breakCycle [⟨0, 1, 0⟩, ⟨1, 2, 5⟩, ⟨2, 3, 0⟩, ⟨3, 4, 3⟩] =
      ([⟨0, 1, 0⟩, ⟨1, 2, 5⟩, ⟨2, 3, 0⟩, ⟨3, 4, 3⟩] : List Edge).drop
        (breakIndex [⟨0, 1, 0⟩, ⟨1, 2, 5⟩, ⟨2, 3, 0⟩, ⟨3, 4, 3⟩] + 1) ++
      ([⟨0, 1, 0⟩, ⟨1, 2, 5⟩, ⟨2, 3, 0⟩, ⟨3, 4, 3⟩] : List Edge).take
        (breakIndex [⟨0, 1, 0⟩, ⟨1, 2, 5⟩, ⟨2, 3, 0⟩, ⟨3, 4, 3⟩]) :=
  breakCycle_weakest_qualifying [⟨0, 1, 0⟩, ⟨1, 2, 5⟩, ⟨2, 3, 0⟩, ⟨3, 4, 3⟩]
    ⟨⟨1, 2, 5⟩, by decide, by decide⟩

/-! ## Lemmas for the pruning passes -/

/-- The density pass can only lower the activity bit at any position. -/
theorem pruneByDensityLoop_active_le (ld : List ℚ) (lb : ℚ) (minTen : ℕ) :
    ∀ (ts : List TigF) (i j : ℕ),
      ((pruneByDensityLoop ld lb minTen i ts).getD j tig0).IsActive ≤
        (ts.getD j tig0).IsActive := by
  intro ts
  induction ts with
  | nil => intro i j; exact le_refl _
  | cons t ts ih =>
    intro i j
    cases j with
    | zero =>
      simp only [pruneByDensityLoop, List.getD_cons_zero]
      split
      · exact Bool.false_le _
      · exact le_refl _
    | succ j =>
      simp only [pruneByDensityLoop, List.getD_cons_succ]
      exact ih (i + 1) j

/-- The size pass can only lower the activity bit at any position. -/
theorem pruneBySize_active_le (minsize : ℕ) :
    ∀ (ts : List TigF) (j : ℕ),
      ((pruneBySize minsize ts).getD j tig0).IsActive ≤ (ts.getD j tig0).IsActive := by
  intro ts
  induction ts with
  | nil => intro j; exact le_refl _
  | cons t ts ih =>
    intro j
    cases j with
    | zero =>
      simp only [pruneBySize, List.map_cons, List.getD_cons_zero]
      split
      · exact Bool.false_le _
      · exact le_refl _
    | succ j =>
      simp only [pruneBySize, List.map_cons, List.getD_cons_succ]
      exact ih j

/-- A single in-place deactivation can only lower the activity bit. -/
theorem deactivateAt_active_le :
    ∀ (ts : List TigF) (jj j : ℕ),
      ((deactivateAt ts jj).getD j tig0).IsActive ≤ (ts.getD j tig0).IsActive := by
  intro ts
  induction ts with
  | nil => intro jj j; exact le_refl _
  | cons t ts ih =>
    intro jj j
    cases jj with
    | zero =>
      cases j with
      | zero => simp only [deactivateAt, List.getD_cons_zero]; exact Bool.false_le _
      | succ j => simp only [deactivateAt, List.getD_cons_succ]; exact le_refl _
    | succ jj =>
      cases j with
      | zero => simp only [deactivateAt, List.getD_cons_zero]; exact le_refl _
      | succ j => simp only [deactivateAt, List.getD_cons_succ]; exact ih jj j

/-- The tour deactivation loop can only lower the activity bit. -/
theorem pruneTourDeactLoop_active_le (ds : List ℚ) (lb : ℚ) :
    ∀ (tour : List Tig) (i : ℕ) (tigs : List TigF) (j : ℕ),
      ((pruneTourDeactLoop ds lb i tour tigs).getD j tig0).IsActive ≤
        (tigs.getD j tig0).IsActive := by
  intro tour
  induction tour with
  | nil => intro i tigs j; exact le_refl _
  | cons tg rest ih =>
    intro i tigs j
    simp only [pruneTourDeactLoop]
    refine le_trans (ih (i + 1) _ j) ?_
    split
    · exact deactivateAt_active_le tigs tg.Idx j
    · exact le_refl _

/-- C7: the three pruning passes are monotonically deactivating — at every
position the activity bit after the pass is at most the activity bit before
it (`false ≤ true`, never `true` from `false`). -/
theorem prune_monotonic_deactivation (tigs : List TigF) (ld : List ℚ) (lb : ℚ)
    (minTen minsize : ℕ) (tour : List Tig) (ds : List ℚ) (lb2 : ℚ) (j : ℕ) :
    ((pruneByDensity tigs ld lb minTen).getD j tig0).IsActive ≤
      (tigs.getD j tig0).IsActive ∧
    ((pruneBySize minsize tigs).getD j tig0).IsActive ≤
      (tigs.getD j tig0).IsActive ∧
    ((pruneTourDeact tigs tour ds lb2).getD j tig0).IsActive ≤
      (tigs.getD j tig0).IsActive :=
  ⟨pruneByDensityLoop_active_le ld lb minTen tigs 0 j,
   pruneBySize_active_le minsize tigs j,
   pruneTourDeactLoop_active_le ds lb2 tour 0 tigs j⟩

/-! ## Lemmas for the contact merge -/

/-- Ingesting records that all carry the same key `p` computes, at `p`, a
fold of the merge step over the contact sequence. -/
theorem ingest_same_key (p : Pair) :
    ∀ (cs : List Contact) (m : Pair → Option Contact),
      ingestContacts m (cs.map fun c => (p, c)) p = List.foldl contactStep (m p) cs := by
  intro cs
  induction cs with
  | nil => intro m; rfl
  | cons c cs ih =>
    intro m
    show ingestContacts (ingestContact m p c) (cs.map fun c => (p, c)) p = _
    rw [ih]
    have : ingestContact m p c p = contactStep (m p) c := by
      simp [ingestContact]
    rw [this]
    rfl

/-- Folding the merge step from an existing best `r0` yields the first
element of `r0 :: cs` attaining the minimal `meanDist`: every element
before it is strictly larger, every element after it is at least it. -/
theorem contactFold_firstMin :
    ∀ (cs : List Contact) (r0 : Contact),
      ∃ r l1 l2, List.foldl contactStep (some r0) cs = some r ∧
        r0 :: cs = l1 ++ r :: l2 ∧
        (∀ c ∈ l1, r.meanDist < c.meanDist) ∧
        (∀ c ∈ l2, r.meanDist ≤ c.meanDist) := by
  intro cs
  induction cs with
  | nil =>
    intro r0
    exact ⟨r0, [], [], rfl, rfl, by simp, by simp⟩
  | cons c cs ih =>
    intro r0
    show ∃ r l1 l2, List.foldl contactStep (contactStep (some r0) c) cs = some r ∧ _
    by_cases hgt : r0.meanDist > c.meanDist
    · have hstep : contactStep (some r0) c = some c := by simp [contactStep, if_pos hgt]
      rw [hstep]
      obtain ⟨r, l1, l2, heq, hdec, hl1, hl2⟩ := ih c
      have hrc : r.meanDist ≤ c.meanDist := by
        cases l1 with
        | nil =>
          have : c = r := by simpa using congrArg (fun l => l.headD r) hdec
          exact le_of_eq (by rw [this])
        | cons a l1' =>
          have hac : a = c := by simpa using (congrArg (fun l => l.headD r) hdec).symm
          exact le_of_lt (hl1 c (by simp [← hac]))
      refine ⟨r, r0 :: l1, l2, heq, by simp [hdec], ?_, hl2⟩
      intro x hx
      rcases List.mem_cons.mp hx with rfl | hx'
      · exact lt_of_le_of_lt hrc hgt
      · exact hl1 x hx'
    · have hstep : contactStep (some r0) c = some r0 := by simp [contactStep, if_neg hgt]
      rw [hstep]
      obtain ⟨r, l1, l2, heq, hdec, hl1, hl2⟩ := ih r0
      have hle : r0.meanDist ≤ c.meanDist := le_of_not_lt hgt
      cases l1 with
      | nil =>
        have hr : r0 = r := by simpa using congrArg (fun l => l.headD r) hdec
        have hl2' : cs = l2 := by simpa using congrArg List.tail hdec
        refine ⟨r, [], c :: l2, heq, by simp [hr, hl2'], by simp, ?_⟩
        intro x hx
        rcases List.mem_cons.mp hx with rfl | hx'
        · exact hr ▸ hle
        · exact hl2 x hx'
      | cons a l1' =>
        have hac : a = r0 := by simpa using (congrArg (fun l => l.headD r) hdec).symm
        have htl : cs = l1' ++ r :: l2 := by simpa using congrArg List.tail hdec
        have hr0 : r.meanDist < r0.meanDist := hl1 r0 (by simp [← hac])
        refine ⟨r, r0 :: c :: l1', l2, heq, by simp [htl], ?_, hl2⟩
        intro x hx
        rcases List.mem_cons.mp hx with rfl | hx'
        · exact hr0
        rcases List.mem_cons.mp hx' with rfl | hx''
        · exact lt_of_lt_of_le hr0 hle
        · exact hl1 x (by simp [hx'', ← hac])

/-- C4 counterexample: two records for the same unordered contig pair but
with the two index orders land under distinct keys, so the stored contact
under `(0,1)` keeps `meanDist` 5 even though a record of `meanDist` 3
exists for the same unordered pair (under `(1,0)`). -/
theorem contacts_unordered_key_cex :
    ingestContacts emptyContacts [(⟨0, 1⟩, ⟨1, 1, 5⟩), (⟨1, 0⟩, ⟨1, 1, 3⟩)] ⟨0, 1⟩ =
      some ⟨1, 1, 5⟩ ∧
    ingestContacts emptyContacts [(⟨0, 1⟩, ⟨1, 1, 5⟩), (⟨1, 0⟩, ⟨1, 1, 3⟩)] ⟨1, 0⟩ =
      some ⟨1, 1, 3⟩ ∧
    (3 : ℤ) < 5 := by
  refine ⟨?_, ?_, by decide⟩ <;> rfl

/-- C4 (amended): for every non-empty sequence of records sharing the same
parsed key `(ai, bi)`, the stored contact is the first record attaining the
minimal `meanDist` — a later record replaces the stored one only when its
`meanDist` is strictly smaller, and ties keep the earlier record. -/
theorem contacts_best_meanDist (p : Pair) (cs : List Contact) (hne : cs ≠ []) :
    ∃ r l1 l2, ingestContacts emptyContacts (cs.map fun c => (p, c)) p = some r ∧
      cs = l1 ++ r :: l2 ∧
      (∀ c ∈ l1, r.meanDist < c.meanDist) ∧
      (∀ c ∈ l2, r.meanDist ≤ c.meanDist) := by
  obtain ⟨c, cs', rfl⟩ := List.exists_cons_of_ne_nil hne
  rw [ingest_same_key]
  show ∃ r l1 l2, List.foldl contactStep (contactStep none c) cs' = some r ∧ _
  have : contactStep none c = some c := rfl
  rw [this]
  exact contactFold_firstMin cs' c

/-- Witness for C4 (amended) at a concrete three-record sequence with a
tie on the minimal `meanDist`. -/
theorem contacts_best_meanDist_witness :
    ∃ r l1 l2,
      ingestContacts emptyContacts
        (([⟨1, 1, 5⟩, ⟨1, 2, 3⟩, ⟨1, 3, 3⟩] : List Contact).map fun c => (⟨0, 1⟩, c)) ⟨0, 1⟩ =
        some r ∧
      ([⟨1, 1, 5⟩, ⟨1, 2, 3⟩, ⟨1, 3, 3⟩] : List Contact) = l1 ++ r :: l2 ∧
      (∀ c ∈ l1, r.meanDist < c.meanDist) ∧
      (∀ c ∈ l2, r.meanDist ≤ c.meanDist) :=
  contacts_best_meanDist ⟨0, 1⟩ [⟨1, 1, 5⟩, ⟨1, 2, 3⟩, ⟨1, 3, 3⟩] (by decide)

/-! ## Association-list lookups behave like Go map reads -/

/-- With distinct outer keys, membership determines the lookup. -/
theorem lookupNb_eq_some :
    ∀ {G : GraphL}, (G.map Prod.fst).Nodup →
      ∀ {a : ℕ} {nb : List (ℕ × ℚ)}, (a, nb) ∈ G → lookupNb G a = some nb := by
  intro G
  induction G with
  | nil => intro _ a nb hmem; simp at hmem
  | cons p rest ih =>
    intro hk a nb hmem
    obtain ⟨k, nb'⟩ := p
    simp only [List.map_cons, List.nodup_cons] at hk
    rcases List.mem_cons.mp hmem with heq | hmem'
    · cases heq
      simp [lookupNb]
    · have hka : k ≠ a := by
        intro h
        subst h
        exact hk.1 (List.mem_map_of_mem Prod.fst hmem')
      simp only [lookupNb, if_neg hka]
      exact ih hk.2 hmem'

/-- A successful lookup witnesses membership. -/
theorem mem_of_lookupNb :
    ∀ {G : GraphL} {a : ℕ} {nb : List (ℕ × ℚ)},
      lookupNb G a = some nb → (a, nb) ∈ G := by
  intro G
  induction G with
  | nil => intro a nb h; simp [lookupNb] at h
  | cons p rest ih =>
    intro a nb h
    obtain ⟨k, nb'⟩ := p
    by_cases hka : k = a
    · simp only [lookupNb, if_pos hka] at h
      cases h
      exact hka ▸ List.mem_cons_self _ _
    · simp only [lookupNb, if_neg hka] at h
      exact List.mem_cons_of_mem _ (ih h)

/-- With distinct inner keys, membership determines the lookup. -/
theorem lookupW_eq_some :
    ∀ {nb : List (ℕ × ℚ)}, (nb.map Prod.fst).Nodup →
      ∀ {b : ℕ} {w : ℚ}, (b, w) ∈ nb → lookupW nb b = some w := by
  intro nb
  induction nb with
  | nil => intro _ b w hmem; simp at hmem
  | cons p rest ih =>
    intro hk b w hmem
    obtain ⟨k, w'⟩ := p
    simp only [List.map_cons, List.nodup_cons] at hk
    rcases List.mem_cons.mp hmem with heq | hmem'
    · cases heq
      simp [lookupW]
    · have hka : k ≠ b := by
        intro h
        subst h
        exact hk.1 (List.mem_map_of_mem Prod.fst hmem')
      simp only [lookupW, if_neg hka]
      exact ih hk.2 hmem'

/-- A successful inner lookup witnesses membership. -/
theorem mem_of_lookupW :
    ∀ {nb : List (ℕ × ℚ)} {b : ℕ} {w : ℚ},
      lookupW nb b = some w → (b, w) ∈ nb := by
  intro nb
  induction nb with
  | nil => intro b w h; simp [lookupW] at h
  | cons p rest ih =>
    intro b w h
    obtain ⟨k, w'⟩ := p
    by_cases hkb : k = b
    · simp only [lookupW, if_pos hkb] at h
      cases h
      exact hkb ▸ List.mem_cons_self _ _
    · simp only [lookupW, if_neg hkb] at h
      exact List.mem_cons_of_mem _ (ih h)

/-- C1: with Go-map key uniqueness, the confidence graph holds an edge
`(a, b)` exactly when the graph holds `(a, b)` with a weight whose quotient
by `getSecondLargest` over the two endpoints' top-2 lists exceeds 1. -/
theorem confidenceGraph_mem_iff (G : GraphL) (hk : (G.map Prod.fst).Nodup)
    (hnb : ∀ p ∈ G, (p.2.map Prod.fst).Nodup) (a b : ℕ) :
    (∃ cw, (a, b, cw) ∈ confEdges G) ↔
    ∃ w, edgeWeight G a b = some w ∧
      1 < w / getSecondLargest (twoLargest G a) (twoLargest G b) := by
  constructor
  · rintro ⟨cw, hmem⟩
    rw [confEdges, List.mem_flatMap] at hmem
    obtain ⟨p, hpG, hin⟩ := hmem
    rw [List.mem_filterMap] at hin
    obtain ⟨bw, hbw, hf⟩ := hin
    split at hf
    case isTrue hcond =>
      simp only [Option.some.injEq, Prod.mk.injEq] at hf
      obtain ⟨ha, hb, hcw⟩ := hf
      refine ⟨bw.2, ?_, ?_⟩
      · have hpmem : (a, p.2) ∈ G := by
          have : (p.1, p.2) ∈ G := by simpa using hpG
          rwa [ha] at this
        have hwmem : (b, bw.2) ∈ p.2 := by
          have : (bw.1, bw.2) ∈ p.2 := by simpa using hbw
          rwa [hb] at this
        simp only [edgeWeight, lookupNb_eq_some hk hpmem, Option.bind_some]
        exact lookupW_eq_some (by simpa using hnb p hpG) hwmem
      · rwa [ha, hb] at hcond
    case isFalse => simp at hf
  · rintro ⟨w, hw, hgt⟩
    rcases hnbq : lookupNb G a with _ | nb
    · simp [edgeWeight, hnbq] at hw
    · simp only [edgeWeight, hnbq, Option.bind_some] at hw
      have hmemG : (a, nb) ∈ G := mem_of_lookupNb hnbq
      have hmemW : (b, w) ∈ nb := mem_of_lookupW hw
      refine ⟨w / getSecondLargest (twoLargest G a) (twoLargest G b), ?_⟩
      rw [confEdges, List.mem_flatMap]
      exact ⟨(a, nb), hmemG, List.mem_filterMap.mpr ⟨(b, w), hmemW, by rw [if_pos hgt]⟩⟩

/-- Witness for C1 at a concrete three-node graph whose mutual-best edge
`(0, 1)` survives with confidence 4. -/
theorem confidenceGraph_mem_iff_witness :
    (([(0, [(1, 4), (2, 1)]), (1, [(0, 4)]), (2, [(0, 1)])] :
        GraphL).map Prod.fst).Nodup ∧
    (∀ p ∈ ([(0, [(1, 4), (2, 1)]), (1, [(0, 4)]), (2, [(0, 1)])] : GraphL),
      (p.2.map Prod.fst).Nodup) ∧
    ((∃ cw, (0, 1, cw) ∈
        confEdges [(0, [(1, 4), (2, 1)]), (1, [(0, 4)]), (2, [(0, 1)])]) ↔
      ∃ w, edgeWeight [(0, [(1, 4), (2, 1)]), (1, [(0, 4)]), (2, [(0, 1)])] 0 1 =
          some w ∧
        1 < w / getSecondLargest
          (twoLargest [(0, [(1, 4), (2, 1)]), (1, [(0, 4)]), (2, [(0, 1)])] 0)
          (twoLargest [(0, [(1, 4), (2, 1)]), (1, [(0, 4)]), (2, [(0, 1)])] 1)) :=
  ⟨by decide, by decide,
   confidenceGraph_mem_iff _ (by decide) (by decide) 0 1⟩

/-! ## Scale invariance of the confidence graph -/

/-- Ordered insertion commutes with scaling by a positive constant. -/
theorem orderedInsert_scale (c : ℚ) (hc : 0 < c) :
    ∀ (l : List ℚ) (a : ℚ),
      (l.map fun z => c * z).orderedInsert (· ≤ ·) (c * a) =
        (l.orderedInsert (· ≤ ·) a).map fun z => c * z := by
  intro l
  induction l with
  | nil => intro a; rfl
  | cons b l ih =>
    intro a
    simp only [List.map_cons, List.orderedInsert]
    by_cases hab : a ≤ b
    · rw [if_pos ((mul_le_mul_left hc).mpr hab), if_pos hab]
      simp
    · rw [if_neg (fun h => hab ((mul_le_mul_left hc).mp h)), if_neg hab]
      simp [ih a]

/-- Insertion sort commutes with scaling by a positive constant. -/
theorem insertionSort_scale (c : ℚ) (hc : 0 < c) :
    ∀ (l : List ℚ),
      List.insertionSort (· ≤ ·) (l.map fun z => c * z) =
        (List.insertionSort (· ≤ ·) l).map fun z => c * z := by
  intro l
  induction l with
  | nil => rfl
  | cons b l ih =>
    simp only [List.map_cons, List.insertionSort, ih]
    exact orderedInsert_scale c hc _ b

/-- A list of length 4 is an explicit quadruple. -/
theorem quad_eq (l : List ℚ) (h : l.length = 4) :
    ∃ a1 a2 a3 a4, l = [a1, a2, a3, a4] := by
  rcases l with _ | ⟨a1, _ | ⟨a2, _ | ⟨a3, _ | ⟨a4, _ | ⟨a5, t⟩⟩⟩⟩⟩ <;>
    simp_all

/-- Function `getSecondLargest` scales linearly under a positive constant: sorting,
the duplicate test and the positivity fallback are all preserved. -/
theorem getSecondLargest_scale (c : ℚ) (hc : 0 < c) (x y : ℚ × ℚ) :
    getSecondLargest (c * x.1, c * x.2) (c * y.1, c * y.2) =
      c * getSecondLargest x y := by
  obtain ⟨a1, a2, a3, a4, hq⟩ :=
    quad_eq (List.insertionSort (· ≤ ·) [x.1, x.2, y.1, y.2])
      (by rw [List.length_insertionSort]; rfl)
  have hmap : ([c * x.1, c * x.2, c * y.1, c * y.2] : List ℚ) =
      ([x.1, x.2, y.1, y.2]).map fun z => c * z := by simp
  unfold getSecondLargest
  rw [hmap, insertionSort_scale c hc, hq]
  simp only [List.map_cons, List.map_nil]
  show (if c * a4 = c * a3 ∧ c * a2 > 0 then c * a2 else c * a3) =
    c * (if a4 = a3 ∧ a2 > 0 then a2 else a3)
  have hiff : (c * a4 = c * a3 ∧ c * a2 > 0) ↔ (a4 = a3 ∧ a2 > 0) := by
    rw [mul_right_inj' (ne_of_gt hc), gt_iff_lt, mul_pos_iff_of_pos_left hc]
  rw [if_congr hiff rfl rfl, apply_ite (fun z => c * z)]

/-- The two-largest accumulator step commutes with positive scaling. -/
theorem twoStep_scale (c : ℚ) (hc : 0 < c) (fs : ℚ × ℚ) (s : ℚ) :
    twoStep (c * fs.1, c * fs.2) (c * s) = (c * (twoStep fs s).1, c * (twoStep fs s).2) := by
  unfold twoStep
  by_cases h1 : s > fs.1
  · rw [if_pos ((mul_lt_mul_left hc).mpr h1), if_pos h1]
  · rw [if_neg (fun h => h1 ((mul_lt_mul_left hc).mp h)), if_neg h1]
    by_cases h2 : s ≤ fs.1 ∧ s > fs.2
    · have h2' : c * s ≤ c * fs.1 ∧ c * s > c * fs.2 :=
        ⟨(mul_le_mul_left hc).mpr h2.1, (mul_lt_mul_left hc).mpr h2.2⟩
      rw [if_pos h2', if_pos h2]
    · have h2' : ¬ (c * s ≤ c * fs.1 ∧ c * s > c * fs.2) := fun h =>
        h2 ⟨(mul_le_mul_left hc).mp h.1, (mul_lt_mul_left hc).mp h.2⟩
      rw [if_neg h2', if_neg h2]

/-- The two-largest fold commutes with positive scaling. -/
theorem foldl_twoStep_scale (c : ℚ) (hc : 0 < c) :
    ∀ (l : List ℚ) (fs : ℚ × ℚ),
      (l.map fun z => c * z).foldl twoStep (c * fs.1, c * fs.2) =
        (c * (l.foldl twoStep fs).1, c * (l.foldl twoStep fs).2) := by
  intro l
  induction l with
  | nil => intro fs; rfl
  | cons s l ih =>
    intro fs
    simp only [List.map_cons, List.foldl_cons, twoStep_scale c hc]
    exact ih (twoStep fs s)

/-- Outer lookup commutes with the per-edge scaling map. -/
theorem lookupNb_scaleG (c : ℚ) :
    ∀ (G : GraphL) (a : ℕ),
      lookupNb (scaleG c G) a =
        (lookupNb G a).map fun nb => nb.map fun bw => (bw.1, c * bw.2) := by
  intro G
  induction G with
  | nil => intro a; rfl
  | cons p rest ih =>
    intro a
    obtain ⟨k, nb⟩ := p
    by_cases hka : k = a
    · simp [scaleG, lookupNb, if_pos hka]
    · simp only [scaleG, lookupNb, if_neg hka]
      simpa [scaleG] using ih a

/-- The `twoLargest` of a positively scaled graph is the scaled `twoLargest`. -/
theorem twoLargest_scale (c : ℚ) (hc : 0 < c) (G : GraphL) (a : ℕ) :
    twoLargest (scaleG c G) a =
      (c * (twoLargest G a).1, c * (twoLargest G a).2) := by
  unfold twoLargest
  rw [lookupNb_scaleG]
  cases h : lookupNb G a with
  | none => simp
  | some nb =>
    have hlist : (nb.map fun bw => (bw.1, c * bw.2)).map Prod.snd =
        (nb.map Prod.snd).map fun z => c * z := by
      simp [List.map_map]
    have hfold := foldl_twoStep_scale c hc (nb.map Prod.snd) (0, 0)
    simp only [mul_zero] at hfold
    simpa [hlist] using hfold

/-- The confidence pass is unchanged by scaling every edge weight by a
positive constant: denominators scale together with numerators. -/
theorem confEdges_scale (c : ℚ) (hc : 0 < c) (G : GraphL) :
    confEdges (scaleG c G) = confEdges G := by
  show (G.map fun anb => (anb.1, anb.2.map fun bw => (bw.1, c * bw.2))).flatMap _ =
    G.flatMap _
  rw [List.flatMap_map]
  congr 1
  funext anb
  show (anb.2.map fun bw => (bw.1, c * bw.2)).filterMap _ = anb.2.filterMap _
  rw [List.filterMap_map]
  congr 1
  funext bw
  show (if (c * bw.2) / getSecondLargest (twoLargest (scaleG c G) anb.1)
          (twoLargest (scaleG c G) bw.1) > 1 then
        some (anb.1, bw.1, (c * bw.2) / getSecondLargest (twoLargest (scaleG c G) anb.1)
          (twoLargest (scaleG c G) bw.1))
      else none) = _
  rw [twoLargest_scale c hc G anb.1, twoLargest_scale c hc G bw.1,
    getSecondLargest_scale c hc, mul_div_mul_left bw.2 _ (ne_of_gt hc)]

/-- Length normalization after scaling is scaling after length
normalization. -/
theorem normalizeG_scaleG (c : ℚ) (len : ℕ → ℚ) (G : GraphL) :
    normalizeG len (scaleG c G) = scaleG c (normalizeG len G) := by
  unfold normalizeG scaleG
  rw [List.map_map, List.map_map]
  congr 1
  funext anb
  simp only [Function.comp_apply, List.map_map]
  refine congrArg _ (List.map_congr_left fun bw _ => ?_)
  show (bw.1, c * bw.2 / (len anb.1 * len bw.1)) =
    (bw.1, c * (bw.2 / (len anb.1 * len bw.1)))
  rw [mul_div_assoc]

/-- C5: multiplying all raw link scores by a positive constant before the
length normalization of `makeGraph` leaves the confidence graph computed by
`makeConfidenceGraph` unchanged — not only membership, the surviving
confidence values themselves. -/
theorem confidence_scale_invariance (G : GraphL) (len : ℕ → ℚ) (c : ℚ)
    (hc : 0 < c) :
    confEdges (normalizeG len (scaleG c G)) = confEdges (normalizeG len G) := by
  rw [normalizeG_scaleG, confEdges_scale c hc]

/-- Witness for C5 at a concrete two-node graph and scale factor 2. -/
theorem confidence_scale_invariance_witness :
    (0 : ℚ) < 2 ∧
    confEdges (normalizeG (fun _ => 1) (scaleG 2 [(0, [(1, 4)]), (1, [(0, 4)])])) =
      confEdges (normalizeG (fun _ => 1) [(0, [(1, 4)]), (1, [(0, 4)])]) :=
  ⟨by norm_num, confidence_scale_invariance [(0, [(1, 4)]), (1, [(0, 4)])] (fun _ => 1) 2 (by norm_num)⟩

/-! ## DFS step provenance -/

/-- C3 (amended): in any completed `dfs` walk, every edge beyond the initial
path is either the zero-weight sister edge of its source, or the
first-enumerated entry of its source's neighbour list — the head of
`G[e.a]`, regardless of its weight. -/
theorem dfs_edge_provenance (sis : ℕ → ℕ) (G : GraphL) :
    ∀ (fuel : ℕ) (a : ℕ) (path : List Edge) (visited : List ℕ) (vs : Bool)
      (p : List Edge) (cyc : Bool),
      dfs sis G fuel a path visited vs = some (p, cyc) →
      ∀ e ∈ p, e ∈ path ∨ (e.b = sis e.a ∧ e.weight = 0) ∨
        ∃ rest, lookupNb G e.a = some ((e.b, e.weight) :: rest) := by
  intro fuel
  induction fuel with
  | zero => intro a path visited vs p cyc h; simp [dfs] at h
  | succ n ih =>
    intro a path visited vs p cyc h e he
    simp only [dfs] at h
    by_cases hv : a ∈ visited
    · rw [if_pos hv] at h
      obtain ⟨rfl, rfl⟩ : path = p ∧ true = cyc := by simpa using h
      exact Or.inl he
    · rw [if_neg hv] at h
      cases vs with
      | true =>
        rw [if_pos rfl] at h
        rcases ih (sis a) (path ++ [⟨a, sis a, 0⟩]) (a :: visited) false p cyc h e he with
          hmem | hrest
        · rcases List.mem_append.mp hmem with h1 | h2
          · exact Or.inl h1
          · have he2 : e = ⟨a, sis a, 0⟩ := by simpa using h2
            subst he2
            exact Or.inr (Or.inl ⟨rfl, rfl⟩)
        · exact Or.inr hrest
      | false =>
        rw [if_neg Bool.false_ne_true] at h
        rcases hL : lookupNb G a with _ | nb
        · simp only [hL] at h
          obtain ⟨rfl, rfl⟩ : path = p ∧ false = cyc := by simpa using h
          exact Or.inl he
        · cases nb with
          | nil =>
            simp only [hL] at h
            exact Option.noConfusion h
          | cons bw rest' =>
            obtain ⟨b, w⟩ := bw
            simp only [hL] at h
            rcases ih b (path ++ [⟨a, b, w⟩]) (a :: visited) true p cyc h e he with
              hmem | hrest
            · rcases List.mem_append.mp hmem with h1 | h2
              · exact Or.inl h1
              · have he2 : e = ⟨a, b, w⟩ := by simpa using h2
                subst he2
                exact Or.inr (Or.inr ⟨rest', hL⟩)
            · exact Or.inr hrest

/-- Witness for C3 (amended): a completed concrete walk, analysed by the
theorem. -/
theorem dfs_edge_provenance_witness :
    (⟨0, 2, 2⟩ : Edge) ∈ ([] : List Edge) ∨
    ((⟨0, 2, 2⟩ : Edge).b = (fun n => n + 1) (⟨0, 2, 2⟩ : Edge).a ∧
      (⟨0, 2, 2⟩ : Edge).weight = 0) ∨
    (∃ rest, lookupNb [(0, [(2, 2), (4, 5)])] (⟨0, 2, 2⟩ : Edge).a =
      some (((⟨0, 2, 2⟩ : Edge).b, (⟨0, 2, 2⟩ : Edge).weight) :: rest)) :=
  dfs_edge_provenance (fun n => n + 1) [(0, [(2, 2), (4, 5)])] 10 0 [] [] false
    [⟨0, 2, 2⟩, ⟨2, 3, 0⟩] false (by decide) ⟨0, 2, 2⟩ (by decide)

/-- C3 counterexample: at the non-sister step from End 0 the walk follows
the first-enumerated edge of weight 2 although a neighbour of strictly
larger weight 5 is available, so the walk does not follow the maximal-weight
confidence edge. -/
theorem dfs_not_max_weight_cex :
    dfs (fun n => n + 1) [(0, [(2, 2), (4, 5)])] 10 0 [] [] false =
      some ([⟨0, 2, 2⟩, ⟨2, 3, 0⟩], false) ∧
    (4, (5 : ℚ)) ∈ (lookupNb [(0, [(2, 2), (4, 5)])] 0).getD [] ∧
    (2 : ℚ) < 5 := by
  refine ⟨by decide, by decide, by norm_num⟩

/-! ## Tour refinement log-delta -/

/-- C8 counterexample: the position with `deltaScore = 0.5` passes the
`1e-9` guard yet records `log10(0.5) < 0` — the recorded log-delta of a
position whose delta exceeds `1e-9` need not be positive. -/
theorem log10d_positive_cex :
    ((0.5 : ℝ) - 0 > 1e-9) ∧ log10dEntry 0.5 0 < 0 := by
  refine ⟨by norm_num, ?_⟩
  have h : log10dEntry 0.5 0 = Real.logb 10 ((0.5 : ℝ) - 0) := by
    unfold log10dEntry
    rw [if_pos (by norm_num : (0.5 : ℝ) - 0 > 1e-9)]
  rw [h, show ((0.5 : ℝ) - 0) = 0.5 by norm_num]
  exact Real.logb_neg (by norm_num) (by norm_num) (by norm_num)

/-- C8 (amended): when `deltaScore = tourScore - newTourScore` exceeds
`1e-9`, the recorded value is `log10(deltaScore)`, which always exceeds the
`-9` sentinel and is positive exactly when `deltaScore > 1`; when
`deltaScore ≤ 1e-9` the record is the sentinel `-9.0`. -/
theorem log10d_characterization (ts ns : ℝ) :
    (ts - ns > 1e-9 →
      log10dEntry ts ns = Real.logb 10 (ts - ns) ∧
      -9 < log10dEntry ts ns ∧
      (0 < log10dEntry ts ns ↔ 1 < ts - ns)) ∧
    (¬ ts - ns > 1e-9 → log10dEntry ts ns = -9) := by
  constructor
  · intro hgt
    have heq : log10dEntry ts ns = Real.logb 10 (ts - ns) := by
      unfold log10dEntry
      rw [if_pos hgt]
    have hpos : (0 : ℝ) < ts - ns := lt_trans (by norm_num) hgt
    refine ⟨heq, ?_, ?_⟩
    · rw [heq]
      refine (Real.lt_logb_iff_rpow_lt (by norm_num) hpos).mpr ?_
      have h10 : (10 : ℝ) ^ (-9 : ℝ) = 1e-9 := by
        rw [show (-9 : ℝ) = ((-9 : ℤ) : ℝ) by norm_num, Real.rpow_intCast]
        norm_num
      rw [h10]
      exact hgt
    · rw [heq]
      exact Real.logb_pos_iff (by norm_num) hpos
  · intro hle
    unfold log10dEntry
    rw [if_neg hle]

/-- Witness for C8 (amended) at concrete deltas 2 (positive record) and 0
(sentinel record). -/
theorem log10d_characterization_witness :
    0 < log10dEntry 2 0 ∧ log10dEntry 0 0 = -9 :=
  ⟨((log10d_characterization 2 0).1 (by norm_num)).2.2.mpr (by norm_num),
   (log10d_characterization 0 0).2 (by norm_num)⟩

end ALLHiC
